import Mathlib

/-!
Verification of the Tekton Results MCP server's run-resolution engine.

The definitions below are a shallow embedding of the Go sources in
`internal/tektonresults` (`service.go`, `filters.go`, `client.go`).
Remote collaborators (the HTTP client's `getRecord`/`listRecords` and
`json.Unmarshal` into the `tektonRun` struct) are modelled as an explicit
environment of pure functions; the unbounded `for {}` pagination loops are
modelled with an explicit fuel parameter counting loop iterations; Go's
`int`/`int32` arithmetic is modelled on `Int` with explicit 32-bit
wrap-around where the source converts.  String helpers from the Go standard
library (`strings.TrimSpace`, `strings.Split`, `strings.SplitN`,
`strings.ToLower`, `strings.HasPrefix`, `strings.Contains`,
`strings.ReplaceAll`, `strings.Join`, `base64.StdEncoding.DecodeString`)
are re-implemented on character lists; `TrimSpace` and `ToLower` are
modelled on their Latin-1/ASCII behaviour.
-/

namespace TektonResults

/-- Decidable equality for `Except`, so closed runs of the embedded
functions can be checked by `decide`. -/
instance instDecEqExcept {ε α : Type} [DecidableEq ε] [DecidableEq α] :
    DecidableEq (Except ε α) := fun a b =>
  match a, b with
  | .ok x, .ok y =>
    if h : x = y then isTrue (congrArg Except.ok h)
    else isFalse (fun hh => h (Except.ok.inj hh))
  | .error x, .error y =>
    if h : x = y then isTrue (congrArg Except.error h)
    else isFalse (fun hh => h (Except.error.inj hh))
  | .ok _, .error _ => isFalse (fun hh => Except.noConfusion hh)
  | .error _, .ok _ => isFalse (fun hh => Except.noConfusion hh)

/-! ## String helpers (models of the Go standard library functions used) -/

/-- Model of `unicode.IsSpace` restricted to Latin-1 (the characters Go's
`isSpace` recognises in the Latin-1 range): space, tab, newline, vertical
tab, form feed, carriage return, NEL and NBSP. -/
def isSpaceChar (c : Char) : Bool :=
  c = ' ' || c = '\t' || c = '\n' || c = '\r' ||
  c = Char.ofNat 11 || c = Char.ofNat 12 || c = Char.ofNat 133 || c = Char.ofNat 160

/-- Model of `strings.TrimSpace` on character lists. -/
def trimSpaceList (s : List Char) : List Char :=
  ((s.dropWhile isSpaceChar).reverse.dropWhile isSpaceChar).reverse

/-- Model of `strings.TrimSpace`. -/
def trimSpace (s : String) : String :=
  String.mk (trimSpaceList s.data)

/-- ASCII model of `unicode.ToLower` on a single character. -/
def toLowerChar (c : Char) : Char :=
  if 'A' ≤ c ∧ c ≤ 'Z' then Char.ofNat (c.toNat + 32) else c

/-- ASCII model of `strings.ToLower`. -/
def toLowerStr (s : String) : String :=
  String.mk (s.data.map toLowerChar)

/-- Model of `strings.Split` with a one-character separator. -/
def splitChar (sep : Char) : List Char → List (List Char)
  | [] => [[]]
  | c :: cs =>
    if c = sep then [] :: splitChar sep cs
    else
      match splitChar sep cs with
      | [] => [[c]]
      | w :: ws => (c :: w) :: ws

/-- Model of `strings.SplitN(s, sep, 2)` with a one-character separator:
returns the part before the first separator, and `some` of the rest when
the separator occurs (so the Go result has length 2), `none` otherwise
(Go result has length 1). -/
def splitN2Char (sep : Char) : List Char → List Char × Option (List Char)
  | [] => ([], none)
  | c :: cs =>
    if c = sep then ([], some cs)
    else
      match splitN2Char sep cs with
      | (before, rest) => (c :: before, rest)

/-- Model of `strings.HasPrefix` on character lists. -/
def hasPrefixList : List Char → List Char → Bool
  | _, [] => true
  | [], _ :: _ => false
  | c :: cs, p :: ps => c = p && hasPrefixList cs ps

/-- Model of `strings.HasPrefix`. -/
def hasPrefixStr (s p : String) : Bool :=
  hasPrefixList s.data p.data

/-- Helper for `containsSubstr`. -/
def containsList : List Char → List Char → Bool
  | [], pat => pat.isEmpty
  | c :: cs, pat => hasPrefixList (c :: cs) pat || containsList cs pat

/-- Model of `strings.Contains`. -/
def containsSubstr (s pat : String) : Bool :=
  containsList s.data pat.data

/-- Model of `strings.Join`. -/
def joinSep (sep : String) : List String → String
  | [] => ""
  | [x] => x
  | x :: y :: xs => x ++ sep ++ joinSep sep (y :: xs)

/-- Model of `strings.ReplaceAll` for a one-character pattern, replaced by
the character list `new`. -/
def replaceAllChar (old : Char) (new : List Char) : List Char → List Char
  | [] => []
  | c :: cs => (if c = old then new else [c]) ++ replaceAllChar old new cs

/-! ## Base64 (model of `base64.StdEncoding.DecodeString`) -/

/-- Value of a character in the standard base64 alphabet. -/
def b64Val (c : Char) : Option Nat :=
  if 'A' ≤ c ∧ c ≤ 'Z' then some (c.toNat - 65)
  else if 'a' ≤ c ∧ c ≤ 'z' then some (c.toNat - 97 + 26)
  else if '0' ≤ c ∧ c ≤ '9' then some (c.toNat - 48 + 52)
  else if c = '+' then some 62
  else if c = '/' then some 63
  else none

/-- Decode base64 input four characters at a time; padding with `=` is
only accepted at the end, as in Go's `StdEncoding`. -/
def base64DecodeQuads : List Char → Option (List Nat)
  | [] => some []
  | a :: b :: c :: d :: rest =>
    match b64Val a, b64Val b with
    | some va, some vb =>
      if c = '=' then
        if d = '=' ∧ rest = [] then some [va * 4 + vb / 16]
        else none
      else
        match b64Val c with
        | some vc =>
          if d = '=' then
            if rest = [] then some [va * 4 + vb / 16, (vb % 16) * 16 + vc / 4]
            else none
          else
            match b64Val d, base64DecodeQuads rest with
            | some vd, some bs =>
              some ((va * 4 + vb / 16) :: ((vb % 16) * 16 + vc / 4) :: ((vc % 4) * 64 + vd) :: bs)
            | _, _ => none
        | none => none
    | _, _ => none
  | _ => none

/-- Model of `base64.StdEncoding.DecodeString`, which skips carriage
returns and newlines and otherwise decodes strict 4-character groups.
The decoded bytes are represented as a `String` of code points below 256. -/
def base64Decode (s : String) : Option String :=
  match base64DecodeQuads (s.data.filter (fun c => !(c = '\r' || c = '\n'))) with
  | some bs => some (String.mk (bs.map Char.ofNat))
  | none => none

/-! ## Label-selector parser (`filters.go: parseLabelSelector`) -/

/-- Go map assignment `result[key] = value`: overwrite the entry when the
key is present, append it otherwise.  The mapping is represented as an
association list with unique keys. -/
def mapInsert (m : List (String × String)) (key value : String) : List (String × String) :=
  if m.any (fun p => p.1 == key) then
    m.map (fun p => if p.1 == key then (key, value) else p)
  else m ++ [(key, value)]

/-- Go map lookup `m[key]` (returns the empty string for a missing key,
as Go's zero value). -/
def mapGet (m : List (String × String)) (key : String) : String :=
  match m.find? (fun p => p.1 == key) with
  | some p => p.2
  | none => ""

/-- Key membership in the mapping. -/
def containsKey (m : List (String × String)) (key : String) : Bool :=
  m.any (fun p => p.1 == key)

/-- The body of `parseLabelSelector`'s loop over the comma-split segments,
accumulating into `result`.  Mirrors `filters.go` lines 14-29. -/
def parsePairs : List String → List (String × String) → Except String (List (String × String))
  | [], result => .ok result
  | seg :: rest, result =>
    let pair := trimSpace seg
    if pair = "" then parsePairs rest result
    else
      match splitN2Char '=' pair.data with
      | (_, none) =>
        .error ("invalid label selector \"" ++ pair ++ "\": expected key=value pairs")
      | (k, some v) =>
        let key := trimSpace (String.mk k)
        let value := trimSpace (String.mk v)
        if key = "" ∨ value = "" then
          .error ("invalid label selector \"" ++ pair ++ "\": empty key or value")
        else parsePairs rest (mapInsert result key value)

/-- Embedding of `filters.go: parseLabelSelector`. -/
def parseLabelSelector (selector : String) : Except String (List (String × String)) :=
  if trimSpace selector = "" then .ok []
  else parsePairs ((splitChar ',' selector.data).map (fun l => String.mk l)) []

/-- Embedding of `filters.go: matchesLabels`.  The Go `actual == nil` check inside the
loop behaves like the empty map here, which only differs when an expected
value is the empty string — a case `parseLabelSelector` never produces. -/
def matchesLabels (actual expected : List (String × String)) : Bool :=
  if expected.isEmpty then true
  else expected.all (fun kv => mapGet actual kv.1 == kv.2)

/-! ## Filter-expression builder (`filters.go: buildFilterExpression`) -/

/-- The two resource kinds. -/
inductive ResourceKind where
  | pipelinerun
  | taskrun
deriving DecidableEq

/-- Embedding of `service.go: resourceTypeFilters`. -/
def resourceTypeFilters : ResourceKind → List String
  | .pipelinerun => ["tekton.dev/v1.PipelineRun", "tekton.dev/v1beta1.PipelineRun"]
  | .taskrun => ["tekton.dev/v1.TaskRun", "tekton.dev/v1beta1.TaskRun"]

/-- Embedding of `filters.go: escapeCELString`: ReplaceAll backslash by double
backslash, then ReplaceAll quote by backslash-quote. -/
def escapeCELString (s : String) : String :=
  let s1 := String.mk (replaceAllChar '\\' ['\\', '\\'] s.data)
  String.mk (replaceAllChar '\"' ['\\', '\"'] s1.data)

/-- Embedding of `filters.go: buildFilterExpression`.  The `uid` parameter is present
in the Go signature but deliberately unused (UID filtering is in-memory). -/
def buildFilterExpression (kind : ResourceKind) (labels : List (String × String))
    (exactName uid : String) : String :=
  let parts : List String := []
  let parts := parts ++
    (if (resourceTypeFilters kind).length > 0 then
      ["(" ++ joinSep (" || ")
          ((resourceTypeFilters kind).map
            (fun t => "data_type==\"" ++ escapeCELString t ++ "\"")) ++ ")"]
    else [])
  let parts := parts ++
    labels.map (fun kv =>
      "data.metadata.labels[\"" ++ escapeCELString kv.1 ++ "\"]==\"" ++
        escapeCELString kv.2 ++ "\"")
  let parts :=
    if exactName ≠ "" then
      parts ++ ["data.metadata.name==\"" ++ escapeCELString exactName ++ "\""]
    else parts
  joinSep (" && ") parts

/-- Embedding of `filters.go: parentForNamespace`. -/
def parentForNamespace (ns : String) : String :=
  let t := trimSpace ns
  let lower := toLowerStr t
  if lower = "" ∨ lower = "-" ∨ lower = "all" ∨ lower = "*" then "-/results/-"
  else t ++ "/results/-"

/-! ## Stored records and payload decoding (`client.go`) -/

/-- The raw payload bytes of a record together with the result of Go's
`json.Unmarshal` probe into `interface\x7b\x7d`, which `GetValue` performs
first: either the bytes parse as a JSON string (with its unquoted
contents), or as some non-string JSON value (object, array, number,
boolean or null), or they do not parse at all. -/
inductive RawMessage where
  | jsonString (s : String) (bytes : String)
  | jsonComposite (bytes : String)
  | notJson (bytes : String)
deriving DecidableEq

/-- The raw bytes of the payload. -/
def RawMessage.bytes : RawMessage → String
  | .jsonString _ b => b
  | .jsonComposite b => b
  | .notJson b => b

/-- Embedding of `client.go: record.Data` — the payload plus the memoised decoded
value (`valueDecoded`), which starts out nil (`none`). -/
structure RecordData where
  value : RawMessage
  valueDecoded : Option String
deriving DecidableEq

/-- Embedding of `client.go: record`. -/
structure Record where
  name : String
  uid : String
  data : RecordData
deriving DecidableEq

/-- Store the decoded value in the record's memoisation field. -/
def setDecoded (r : Record) (d : String) : Record :=
  { r with data := { r.data with valueDecoded := some d } }

/-- Embedding of `client.go: record.GetValue`.  The Go method mutates the record
through its pointer receiver; here the updated record is returned
alongside the decoded value. -/
def Record.GetValue (r : Record) : Except String (String × Record) :=
  match r.data.valueDecoded with
  | some d => .ok (d, r)
  | none =>
    match r.data.value with
    | .jsonComposite bytes => .ok (bytes, setDecoded r bytes)
    | .jsonString s _ =>
      match base64Decode s with
      | some decoded => .ok (decoded, setDecoded r decoded)
      | none => .error "decode base64: illegal base64 data"
    | .notJson bytes =>
      match base64Decode bytes with
      | some decoded => .ok (decoded, setDecoded r decoded)
      | none => .error "decode base64: illegal base64 data"

/-! ## The decoded Tekton run (`service.go: tektonRun`) -/

/-- One entry of `status.conditions`. -/
structure RunCondition where
  type : String
  status : String
  reason : String
  message : String
deriving DecidableEq

/-- Embedding of `tektonRun.Metadata` (the Go field `Namespace` is spelled `nspace`
because `namespace` is a Lean keyword). -/
structure RunMetadata where
  name : String
  nspace : String
  uid : String
  labels : List (String × String)
deriving DecidableEq

/-- Embedding of `tektonRun.Status`; timestamps are modelled as abstract instants. -/
structure RunStatus where
  startTime : Option Int
  completionTime : Option Int
  conditions : List RunCondition
deriving DecidableEq

/-- Embedding of `service.go: tektonRun`. -/
structure TektonRun where
  metadata : RunMetadata
  status : RunStatus
deriving DecidableEq

/-- Embedding of `service.go: RunSummary`. -/
structure RunSummary where
  name : String
  nspace : String
  uid : String
  labels : List (String × String)
  startTime : Option Int
  completionTime : Option Int
  status : String
  reason : String
  recordName : String
deriving DecidableEq

/-- Embedding of `service.go: RunDetail` (`Raw` is the decoded payload bytes). -/
structure RunDetail where
  summary : RunSummary
  raw : String
  recordName : String
deriving DecidableEq

/-- Embedding of `service.go: RunSelector` (`Namespace` is spelled `nspace`, `Prefix`
is spelled `pfx`). -/
structure RunSelector where
  nspace : String
  labelSelector : String
  pfx : String
  name : String
  uid : String
  selectLast : Bool
deriving DecidableEq

/-- Embedding of `service.go: ListOptions` (`Prefix` is spelled `pfx`; `Limit` is a Go
`int`, modelled as `Int`). -/
structure ListOptions where
  nspace : String
  labelSelector : String
  pfx : String
  limit : Int
deriving DecidableEq

/-! ## Requests, responses, and the remote environment -/

/-- Embedding of `client.go: listRecordsRequest` (`PageSize` is a Go `int32`). -/
structure ListRecordsRequest where
  parent : String
  filter : String
  orderBy : String
  pageSize : Int
  pageToken : String
  fields : String
deriving DecidableEq

/-- Embedding of `client.go: listRecordsResponse`. -/
structure ListRecordsResponse where
  records : List Record
  nextPageToken : String
deriving DecidableEq

/-- The external collaborators the service calls: the results client's
`getRecord` and `listRecords`, and `json.Unmarshal` of decoded payload
bytes into a `tektonRun` (a pure partial function of the bytes). -/
structure Env where
  getRecord : String → Except String Record
  listRecords : ListRecordsRequest → Except String ListRecordsResponse
  unmarshalRun : String → Except String TektonRun

/-- One remote call recorded in an execution trace. -/
inductive Call where
  | getRecordCall (recordName : String)
  | listRecordsCall (req : ListRecordsRequest)
deriving DecidableEq

/-- Go `int32(n)` conversion: wrap into the two's-complement range. -/
def toInt32 (n : Int) : Int :=
  (n + 2 ^ 31) % 2 ^ 32 - 2 ^ 31

/-- The `service.go` constant `listFields`. -/
def listFields : String :=
  "records.name,records.uid,records.data.value.metadata,records.data.value.status,next_page_token"

/-- The `service.go` constant `nameUIDAndDataField`. -/
def nameUIDAndDataField : String :=
  "records.name,records.uid,records.data.value"

/-- The `service.go` constant `defaultListLimit`. -/
def defaultListLimit : Int := 50

/-- The `service.go` constant `maxPageSize`. -/
def maxPageSize : Int := 200

/-- The `service.go` constant `describePageSize`. -/
def describePageSize : Int := 50

/-! ## Run summarisation (`service.go`) -/

/-- Embedding of `service.go: chooseString`. -/
def chooseString (primary fallback : String) : String :=
  if primary ≠ "" then primary else fallback

/-- Embedding of `service.go: conditionStatus` — status and reason of the first
condition whose type is `Succeeded`, or empty strings. -/
def conditionStatus : List RunCondition → String × String
  | [] => ("", "")
  | cond :: rest =>
    if cond.type = "Succeeded" then (cond.status, cond.reason)
    else conditionStatus rest

/-- Embedding of `service.go: decodeRun`. -/
def decodeRun (env : Env) (rec : Record) : Except String TektonRun :=
  match Record.GetValue rec with
  | .error e => .error ("get value for record " ++ rec.name ++ ": " ++ e)
  | .ok (value, _) =>
    if value = "" then .error ("record " ++ rec.name ++ " has no embedded Tekton data")
    else
      match env.unmarshalRun value with
      | .error e => .error ("decode Tekton resource in record " ++ rec.name ++ ": " ++ e)
      | .ok run => .ok run

/-- Embedding of `service.go: summarizeRun`. -/
def summarizeRun (run : TektonRun) (rec : Record) : RunSummary :=
  let sr := conditionStatus run.status.conditions
  { name := run.metadata.name
    nspace := run.metadata.nspace
    uid := chooseString run.metadata.uid rec.uid
    labels := run.metadata.labels
    startTime := run.status.startTime
    completionTime := run.status.completionTime
    status := sr.1
    reason := sr.2
    recordName := rec.name }

/-! ## listRuns (`service.go` lines 170-232) -/

/-- The inner `for _, rec := range resp.Records` loop of `listRuns`:
decode, apply the in-memory label and name-prefix predicates, append the
summary, and return early (second component `true`) once the limit is
reached. -/
def processPage (env : Env) (lf : List (String × String)) (pfx : String) (limit : Int) :
    List RunSummary → List Record → Except String (List RunSummary × Bool)
  | summaries, [] => .ok (summaries, false)
  | summaries, rec :: recs =>
    match decodeRun env rec with
    | .error e => .error e
    | .ok run =>
      if ¬ matchesLabels run.metadata.labels lf then
        processPage env lf pfx limit summaries recs
      else if pfx ≠ "" ∧ ¬ hasPrefixStr run.metadata.name pfx then
        processPage env lf pfx limit summaries recs
      else
        let s2 := summaries ++ [summarizeRun run rec]
        if limit ≤ (s2.length : Int) then .ok (s2, true)
        else processPage env lf pfx limit s2 recs

/-- The outer pagination loop of `listRuns`, with fuel bounding the
number of iterations (the Go loop relies on the store eventually
returning an empty continuation token).  The trace records each issued
request together with the number of summaries accumulated when it was
issued. -/
def listRunsLoop (env : Env) (lf : List (String × String)) (pfx : String) (limit : Int) :
    Nat → ListRecordsRequest → List RunSummary →
    Except String (List RunSummary) × List (ListRecordsRequest × Nat)
  | 0, _, _ => (.error "page loop fuel exhausted", [])
  | Nat.succ fuel, req, summaries =>
    match env.listRecords req with
    | .error e => (.error e, [(req, summaries.length)])
    | .ok resp =>
      match processPage env lf pfx limit summaries resp.records with
      | .error e => (.error e, [(req, summaries.length)])
      | .ok (s2, reached) =>
        if reached then (.ok s2, [(req, summaries.length)])
        else if resp.nextPageToken = "" then (.ok s2, [(req, summaries.length)])
        else
          let remaining : Int := limit - (s2.length : Int)
          if remaining ≤ 0 then (.ok s2, [(req, summaries.length)])
          else
            let req2 := { req with pageToken := resp.nextPageToken }
            let req3 :=
              if remaining < req2.pageSize then { req2 with pageSize := toInt32 remaining }
              else req2
            let next := listRunsLoop env lf pfx limit fuel req3 s2
            (next.1, (req, summaries.length) :: next.2)

/-- Embedding of `service.go: listRuns`. -/
def listRuns (env : Env) (fuel : Nat) (kind : ResourceKind) (opts : ListOptions) :
    Except String (List RunSummary) × List (ListRecordsRequest × Nat) :=
  match parseLabelSelector opts.labelSelector with
  | .error e => (.error e, [])
  | .ok lf =>
    let filter := buildFilterExpression kind lf "" ""
    let parent := parentForNamespace opts.nspace
    let limit : Int := if opts.limit ≤ 0 then defaultListLimit else opts.limit
    let pageSize : Int := toInt32 limit
    let pageSize : Int := if maxPageSize < pageSize then maxPageSize else pageSize
    let req : ListRecordsRequest :=
      { parent := parent
        filter := filter
        orderBy := "create_time desc"
        pageSize := pageSize
        pageToken := ""
        fields := listFields }
    listRunsLoop env lf opts.pfx limit fuel req []

/-! ## queryRecords (`service.go` lines 290-358) -/

/-- The inner record loop of `queryRecords`: apply the in-memory
predicates (UID, labels, name prefix, exact name), collect a `RunDetail`
per match, and break out of the page once more than one match has been
accumulated. -/
def scanPage (env : Env) (sel : RunSelector) (lf : List (String × String)) :
    List RunDetail → List Record → Except String (List RunDetail)
  | found, [] => .ok found
  | found, rec :: recs =>
    match decodeRun env rec with
    | .error e => .error e
    | .ok run =>
      if sel.uid ≠ "" ∧ chooseString run.metadata.uid rec.uid ≠ sel.uid then
        scanPage env sel lf found recs
      else if ¬ matchesLabels run.metadata.labels lf then
        scanPage env sel lf found recs
      else if sel.pfx ≠ "" ∧ ¬ hasPrefixStr run.metadata.name sel.pfx then
        scanPage env sel lf found recs
      else if sel.name ≠ "" ∧ run.metadata.name ≠ sel.name then
        scanPage env sel lf found recs
      else
        match Record.GetValue rec with
        | .error e => .error ("get value for detail: " ++ e)
        | .ok (rawValue, _) =>
          let found2 := found ++
            [{ summary := summarizeRun run rec, raw := rawValue, recordName := rec.name }]
          if 1 < found2.length then .ok found2
          else scanPage env sel lf found2 recs

/-- The pagination loop of `queryRecords`, with fuel bounding the number
of iterations; the trace records the issued list requests. -/
def queryRecordsLoop (env : Env) (sel : RunSelector) (lf : List (String × String)) :
    Nat → ListRecordsRequest → List RunDetail →
    Except String (List RunDetail) × List Call
  | 0, _, _ => (.error "page loop fuel exhausted", [])
  | Nat.succ fuel, req, found =>
    match env.listRecords req with
    | .error e => (.error e, [Call.listRecordsCall req])
    | .ok resp =>
      match scanPage env sel lf found resp.records with
      | .error e => (.error e, [Call.listRecordsCall req])
      | .ok found2 =>
        if 1 < found2.length ∨ resp.nextPageToken = "" then
          (.ok found2, [Call.listRecordsCall req])
        else
          let next := queryRecordsLoop env sel lf fuel
            { req with pageToken := resp.nextPageToken } found2
          (next.1, Call.listRecordsCall req :: next.2)

/-- Embedding of `service.go: queryRecords`. -/
def queryRecords (env : Env) (fuel : Nat) (req : ListRecordsRequest) (sel : RunSelector) :
    Except String RunDetail × List Call :=
  match parseLabelSelector sel.labelSelector with
  | .error e => (.error e, [])
  | .ok lf =>
    match queryRecordsLoop env sel lf fuel req [] with
    | (.error e, tr) => (.error e, tr)
    | (.ok found, tr) =>
      match found with
      | [] => (.error "no run found that matches the provided filters", tr)
      | [m] => (.ok m, tr)
      | m1 :: m2 :: rest =>
        if sel.selectLast then (.ok m1, tr)
        else
          let names := (m1 :: m2 :: rest).map
            (fun d => d.summary.nspace ++ "/" ++ d.summary.name)
          (.error ("multiple run instances match the filters (" ++ joinSep (", ") names ++
            "). Please refine the filters with an exact name or prefix."), tr)

/-! ## getRun (`service.go` lines 234-287) -/

/-- The direct-lookup record name constructed by `getRun`'s fast path:
`\x7bns\x7d/results/\x7buid\x7d/records/\x7buid\x7d`, with the namespace
defaulting to `default`. -/
def getRecordName (sel : RunSelector) : String :=
  let ns := if sel.nspace = "" then "default" else sel.nspace
  ns ++ "/results/" ++ sel.uid ++ "/records/" ++ sel.uid

/-- The list request `getRun` builds for the scan path. -/
def getRunScanReq (kind : ResourceKind) (sel : RunSelector)
    (lf : List (String × String)) : ListRecordsRequest :=
  { parent := parentForNamespace sel.nspace
    filter := buildFilterExpression kind lf sel.name ""
    orderBy := "create_time desc"
    pageSize := describePageSize
    pageToken := ""
    fields := nameUIDAndDataField }

/-- Embedding of `service.go: getRun`.  The fast path tries a direct `getRecord` by
UID; on failure it falls back to the scan path only for TaskRuns whose
error message carries the gRPC NotFound marker. -/
def getRun (env : Env) (fuel : Nat) (kind : ResourceKind) (sel : RunSelector) :
    Except String RunDetail × List Call :=
  match parseLabelSelector sel.labelSelector with
  | .error e => (.error e, [])
  | .ok lf =>
    if sel.uid ≠ "" then
      match env.getRecord (getRecordName sel) with
      | .ok rec =>
        (match decodeRun env rec with
         | .error e =>
           (.error ("decode run from direct get: " ++ e), [Call.getRecordCall (getRecordName sel)])
         | .ok run =>
           match Record.GetValue rec with
           | .error e =>
             (.error ("get value for detail from direct get: " ++ e),
              [Call.getRecordCall (getRecordName sel)])
           | .ok (rawValue, _) =>
             (.ok { summary := summarizeRun run rec, raw := rawValue, recordName := rec.name },
              [Call.getRecordCall (getRecordName sel)]))
      | .error e =>
        if kind = ResourceKind.taskrun ∧ containsSubstr e ("\"code\":5") then
          let next := queryRecords env fuel (getRunScanReq kind sel lf) sel
          (next.1, Call.getRecordCall (getRecordName sel) :: next.2)
        else
          (.error ("get record by UID: " ++ e), [Call.getRecordCall (getRecordName sel)])
    else
      queryRecords env fuel (getRunScanReq kind sel lf) sel

/-! ## Verification-side characterisations -/

/-- The conjunction of `queryRecords`' in-memory predicates, as a single
boolean: a decoded run (with its record) survives the UID, label,
name-prefix and exact-name filters. -/
def runPasses (sel : RunSelector) (lf : List (String × String))
    (run : TektonRun) (rec : Record) : Bool :=
  if sel.uid ≠ "" ∧ chooseString run.metadata.uid rec.uid ≠ sel.uid then false
  else if ¬ matchesLabels run.metadata.labels lf then false
  else if sel.pfx ≠ "" ∧ ¬ hasPrefixStr run.metadata.name sel.pfx then false
  else if sel.name ≠ "" ∧ run.metadata.name ≠ sel.name then false
  else true

/-- All matching `RunDetail`s of one page, in store-reported order and
without the early stop (the order-preserving filter `scanPage` refines). -/
def pageDetails (env : Env) (sel : RunSelector) (lf : List (String × String)) :
    List Record → Except String (List RunDetail)
  | [] => .ok []
  | rec :: recs =>
    match decodeRun env rec with
    | .error e => .error e
    | .ok run =>
      if runPasses sel lf run rec then
        match Record.GetValue rec with
        | .error e => .error ("get value for detail: " ++ e)
        | .ok (rawValue, _) =>
          match pageDetails env sel lf recs with
          | .error e => .error e
          | .ok ds =>
            .ok ({ summary := summarizeRun run rec, raw := rawValue,
                   recordName := rec.name } :: ds)
      else pageDetails env sel lf recs

/-- All matching details over a sequence of pages, concatenated in
store-reported order. -/
def pagesDetails (env : Env) (sel : RunSelector) (lf : List (String × String)) :
    List (List Record) → Except String (List RunDetail)
  | [] => .ok []
  | p :: ps =>
    match pageDetails env sel lf p with
    | .error e => .error e
    | .ok d =>
      match pagesDetails env sel lf ps with
      | .error e => .error e
      | .ok ds => .ok (d ++ ds)

/-- The store serves the given non-empty sequence of pages along the
continuation-token chain starting from `req`: each page is returned for
the current token, hands out a non-empty token for the next page, and the
last page's token is empty. -/
def servesPages (env : Env) : ListRecordsRequest → List (List Record) → Prop
  | _, [] => False
  | req, [page] => env.listRecords req = .ok { records := page, nextPageToken := "" }
  | req, page :: rest =>
    ∃ tok, tok ≠ "" ∧
      env.listRecords req = .ok { records := page, nextPageToken := tok } ∧
      servesPages env { req with pageToken := tok } rest

/-! ## Concrete environments for witnesses and counterexamples -/

/-- A minimal decoded run for payload bytes `s`: name and UID are `s`
itself, namespace `ns`, no labels, no conditions. -/
def mkSimpleRun (s : String) : TektonRun :=
  { metadata := { name := s, nspace := "ns", uid := s, labels := [] }
    status := { startTime := none, completionTime := none, conditions := [] } }

/-- An `unmarshalRun` collaborator that succeeds on every payload. -/
def simpleUnmarshal : String → Except String TektonRun :=
  fun s => .ok (mkSimpleRun s)

/-- A record with a plain-JSON (composite) payload. -/
def mkRec (nm u b : String) : Record :=
  { name := nm, uid := u, data := { value := .jsonComposite b, valueDecoded := none } }

/-- Records for the pagination scenario: record `i` decodes to a run
named `run-i`. -/
def recC3 (i : String) : Record :=
  mkRec ("rec-" ++ i) ("u" ++ i) ("run-" ++ i)

/-- A store serving pages of three records with continuation tokens
`t1`, `t2`, ... -/
def envC3 : Env :=
  { getRecord := fun _ => .error "unsupported"
    listRecords := fun req =>
      if req.pageToken = "" then
        .ok { records := [recC3 "1", recC3 "2", recC3 "3"], nextPageToken := "t1" }
      else if req.pageToken = "t1" then
        .ok { records := [recC3 "4", recC3 "5", recC3 "6"], nextPageToken := "t2" }
      else .error "unknown page token"
    unmarshalRun := simpleUnmarshal }

/-- List options with limit 5 for the pagination scenario. -/
def optsC3 : ListOptions :=
  { nspace := "ns", labelSelector := "", pfx := "", limit := 5 }

/-- A record whose payload decodes to a run named `nm`. -/
def recAmb (nm : String) : Record :=
  mkRec ("rec-" ++ nm) nm nm

/-- A single-page store holding three records that all pass the
in-memory predicates of `selAmb`. -/
def envAmb : Env :=
  { getRecord := fun _ => .error "unsupported"
    listRecords := fun req =>
      if req.pageToken = "" then
        .ok { records := [recAmb "run-a", recAmb "run-b", recAmb "run-c"],
              nextPageToken := "" }
      else .error "unknown page token"
    unmarshalRun := simpleUnmarshal }

/-- A selector with no predicates and strict (non-auto-select) mode. -/
def selAmb : RunSelector :=
  { nspace := "ns", labelSelector := "", pfx := "", name := "", uid := "",
    selectLast := false }

/-- The same selector with auto-select-most-recent enabled. -/
def selAmbLast : RunSelector :=
  { selAmb with selectLast := true }

/-- The list request used with `envAmb`. -/
def reqAmb : ListRecordsRequest :=
  { parent := "ns/results/-", filter := "", orderBy := "create_time desc",
    pageSize := 50, pageToken := "", fields := "" }

/-- The `RunDetail` produced for `recAmb nm`. -/
def detailAmb (nm : String) : RunDetail :=
  { summary := summarizeRun (mkSimpleRun nm) (recAmb nm), raw := nm,
    recordName := "rec-" ++ nm }

/-- An environment whose direct `getRecord` always fails with the gRPC
NotFound marker in the message, and whose store serves one page holding a
record that matches UID `u7`. -/
def envFall : Env :=
  { getRecord := fun _ => .error "rpc error: code = NotFound desc \"code\":5"
    listRecords := fun req =>
      if req.pageToken = "" then
        .ok { records := [mkRec "rec-7" "u7" "u7"], nextPageToken := "" }
      else .error "unknown page token"
    unmarshalRun := simpleUnmarshal }

/-- An environment whose direct `getRecord` fails with a permission
error (no NotFound marker). -/
def envDenied : Env :=
  { getRecord := fun _ => .error "rpc error: \"code\":7 permission denied"
    listRecords := fun _ => .error "should not be called"
    unmarshalRun := simpleUnmarshal }

/-- A selector that carries only a UID. -/
def selUID : RunSelector :=
  { nspace := "ns", labelSelector := "", pfx := "", name := "", uid := "u7",
    selectLast := true }

/-- An environment whose direct `getRecord` serves the record for the
fast path. -/
def envFast : Env :=
  { getRecord := fun nm =>
      if nm = "ns/results/u7/records/u7" then .ok (mkRec "rec-7" "u7" "u7")
      else .error "not found \"code\":5"
    listRecords := fun _ => .error "should not be called"
    unmarshalRun := simpleUnmarshal }

/-! ## Helper lemmas -/

/-- With a successfully parsed label selector, `queryRecords` passes the
pagination loop's trace through unchanged. -/
theorem queryRecords_trace_eq (env : Env) (fuel : Nat) (req : ListRecordsRequest)
    (sel : RunSelector) (lf : List (String × String))
    (hlf : parseLabelSelector sel.labelSelector = .ok lf) :
    (queryRecords env fuel req sel).2 = (queryRecordsLoop env sel lf fuel req []).2 := by
  simp only [queryRecords, hlf]
  rcases hq : queryRecordsLoop env sel lf fuel req [] with ⟨res, tr⟩
  cases res with
  | error e => rfl
  | ok found =>
    match found with
    | [] => rfl
    | [m] => rfl
    | m1 :: m2 :: rest =>
      by_cases hsl : sel.selectLast <;> simp [hsl]

/-- With positive fuel, the pagination loop's first trace entry is the
list call for the request it was started with. -/
theorem queryRecordsLoop_trace_head (env : Env) (sel : RunSelector)
    (lf : List (String × String)) (fuel : Nat) (req : ListRecordsRequest)
    (found : List RunDetail) :
    ∃ rest, (queryRecordsLoop env sel lf (fuel + 1) req found).2 =
      Call.listRecordsCall req :: rest := by
  simp only [queryRecordsLoop]
  split
  · exact ⟨[], rfl⟩
  · split
    · exact ⟨[], rfl⟩
    · split
      · exact ⟨[], rfl⟩
      · exact ⟨_, rfl⟩

/-! ## Claim C5: record payload decoding -/

/-- C5: for every stored record, a payload that unmarshals to a
non-string JSON value (in particular any object or array) is returned
unchanged by `GetValue`; a payload that unmarshals to a JSON string is
base64-decoded, failing when base64 decoding fails; and a second
`GetValue` on the record instance returned by a successful call yields
the byte-identical value (idempotence through the memoised
`valueDecoded`). -/
theorem record_getValue_spec (r : Record) :
    (∀ b, r.data.valueDecoded = none → r.data.value = RawMessage.jsonComposite b →
      Record.GetValue r = .ok (b, setDecoded r b)) ∧
    (∀ s bytes d, r.data.valueDecoded = none → r.data.value = RawMessage.jsonString s bytes →
      base64Decode s = some d → Record.GetValue r = .ok (d, setDecoded r d)) ∧
    (∀ s bytes, r.data.valueDecoded = none → r.data.value = RawMessage.jsonString s bytes →
      base64Decode s = none → ∃ e, Record.GetValue r = .error e) ∧
    (∀ v r2, Record.GetValue r = .ok (v, r2) → Record.GetValue r2 = .ok (v, r2)) := by
  refine ⟨?_, ?_, ?_, ?_⟩
  · intro b hcache hval
    simp only [Record.GetValue, hcache, hval]
  · intro s bytes d hcache hval hdec
    simp only [Record.GetValue, hcache, hval, hdec]
  · intro s bytes hcache hval hdec
    exact ⟨"decode base64: illegal base64 data",
      by simp only [Record.GetValue, hcache, hval, hdec]⟩
  · intro v r2 h
    rcases hc : r.data.valueDecoded with _ | d
    · rcases hv : r.data.value with ⟨s, bytes⟩ | bytes | bytes
      · rcases hd : base64Decode s with _ | d
        · simp only [Record.GetValue, hc, hv, hd] at h
          exact Except.noConfusion h
        · simp only [Record.GetValue, hc, hv, hd, Except.ok.injEq, Prod.mk.injEq] at h
          obtain ⟨hv2, hr2⟩ := h
          subst hv2; subst hr2
          simp only [Record.GetValue, setDecoded]
      · simp only [Record.GetValue, hc, hv, Except.ok.injEq, Prod.mk.injEq] at h
        obtain ⟨hv2, hr2⟩ := h
        subst hv2; subst hr2
        simp only [Record.GetValue, setDecoded]
      · rcases hd : base64Decode bytes with _ | d
        · simp only [Record.GetValue, hc, hv, hd] at h
          exact Except.noConfusion h
        · simp only [Record.GetValue, hc, hv, hd, Except.ok.injEq, Prod.mk.injEq] at h
          obtain ⟨hv2, hr2⟩ := h
          subst hv2; subst hr2
          simp only [Record.GetValue, setDecoded]
    · simp only [Record.GetValue, hc, Except.ok.injEq, Prod.mk.injEq] at h
      obtain ⟨hv2, hr2⟩ := h
      subst hv2; subst hr2
      simp only [Record.GetValue, hc]

/-- A record with a composite JSON payload. -/
def recC5c : Record := mkRec "n" "u" "payload-a"

/-- A record whose payload is the JSON string `"aGk="` (base64 for `hi`). -/
def recC5s : Record :=
  { name := "n", uid := "u",
    data := { value := .jsonString "aGk=" "\"aGk=\"", valueDecoded := none } }

/-- A record whose payload is a JSON string that is not valid base64. -/
def recC5bad : Record :=
  { name := "n", uid := "u",
    data := { value := .jsonString "!!!" "\"!!!\"", valueDecoded := none } }

/-- Witness for C5 at concrete records. -/
theorem record_getValue_spec_witness :
    Record.GetValue recC5c = .ok ("payload-a", setDecoded recC5c "payload-a") ∧
    Record.GetValue recC5s = .ok ("hi", setDecoded recC5s "hi") ∧
    (∃ e, Record.GetValue recC5bad = .error e) ∧
    Record.GetValue (setDecoded recC5s "hi") = .ok ("hi", setDecoded recC5s "hi") :=
  ⟨(record_getValue_spec recC5c).1 _ rfl rfl,
   (record_getValue_spec recC5s).2.1 _ _ _ rfl rfl (by decide),
   (record_getValue_spec recC5bad).2.2.1 _ _ rfl rfl (by decide),
   (record_getValue_spec recC5s).2.2.2 _ _
     ((record_getValue_spec recC5s).2.1 _ _ _ rfl rfl (by decide))⟩

/-! ## Claim C4: UID fast path -/

/-- C4: when the selector carries a UID, the direct single-record fetch
succeeds and the record decodes, `getRun` returns that record's
`RunDetail` and the trace is exactly one `getRecord` call — no
`listRecords` call is issued. -/
theorem getRun_fast_path (env : Env) (fuel : Nat) (kind : ResourceKind) (sel : RunSelector)
    (lf : List (String × String)) (rec : Record) (run : TektonRun) (raw : String) (rec2 : Record)
    (hlf : parseLabelSelector sel.labelSelector = .ok lf)
    (huid : sel.uid ≠ "")
    (hget : env.getRecord (getRecordName sel) = .ok rec)
    (hdec : decodeRun env rec = .ok run)
    (hval : Record.GetValue rec = .ok (raw, rec2)) :
    getRun env fuel kind sel =
      (.ok { summary := summarizeRun run rec, raw := raw, recordName := rec.name },
       [Call.getRecordCall (getRecordName sel)]) := by
  simp only [getRun, hlf, hget, hdec, hval]
  rw [if_pos huid]

/-- Witness for C4: a concrete store where the fast path hits. -/
theorem getRun_fast_path_witness :
    getRun envFast 2 ResourceKind.taskrun selUID =
      (.ok { summary := summarizeRun (mkSimpleRun "u7") (mkRec "rec-7" "u7" "u7"),
             raw := "u7", recordName := "rec-7" },
       [Call.getRecordCall (getRecordName selUID)]) :=
  getRun_fast_path envFast 2 ResourceKind.taskrun selUID [] (mkRec "rec-7" "u7" "u7")
    (mkSimpleRun "u7") "u7" (setDecoded (mkRec "rec-7" "u7" "u7") "u7")
    (by decide) (by decide) (by decide) (by decide) (by decide)

/-! ## Claim C2: fallback from the failed fast path -/

/-- C2: when the direct UID fetch fails, `getRun` falls through to the
scan path exactly when the requested kind is `taskrun` and the error
carries the gRPC NotFound marker; for `pipelinerun`, or any other
failure, it fails immediately with the wrapped error and the trace shows
no list request.  In the fall-through case with positive fuel the trace
shows the scan's first list request. -/
theorem getRun_fallback (env : Env) (fuel : Nat) (kind : ResourceKind) (sel : RunSelector)
    (lf : List (String × String)) (e : String)
    (hlf : parseLabelSelector sel.labelSelector = .ok lf)
    (huid : sel.uid ≠ "")
    (herr : env.getRecord (getRecordName sel) = .error e) :
    (kind = ResourceKind.taskrun ∧ containsSubstr e ("\"code\":5") →
      getRun env fuel kind sel =
        ((queryRecords env fuel (getRunScanReq kind sel lf) sel).1,
         Call.getRecordCall (getRecordName sel) ::
           (queryRecords env fuel (getRunScanReq kind sel lf) sel).2)) ∧
    (¬(kind = ResourceKind.taskrun ∧ containsSubstr e ("\"code\":5")) →
      getRun env fuel kind sel =
        (.error ("get record by UID: " ++ e), [Call.getRecordCall (getRecordName sel)])) ∧
    (kind = ResourceKind.taskrun → containsSubstr e ("\"code\":5") → 0 < fuel →
      ∃ rest, (getRun env fuel kind sel).2 =
        Call.getRecordCall (getRecordName sel) ::
          Call.listRecordsCall (getRunScanReq kind sel lf) :: rest) := by
  refine ⟨?_, ?_, ?_⟩
  · intro hcond
    simp only [getRun, hlf, herr]
    rw [if_pos huid, if_pos hcond]
  · intro hcond
    simp only [getRun, hlf, herr]
    rw [if_pos huid, if_neg hcond]
  · intro hkind hmark hfuel
    obtain ⟨f, rfl⟩ : ∃ f, fuel = f + 1 := ⟨fuel - 1, by omega⟩
    simp only [getRun, hlf, herr]
    rw [if_pos huid, if_pos (And.intro hkind hmark)]
    rw [queryRecords_trace_eq env (f + 1) (getRunScanReq kind sel lf) sel lf hlf]
    obtain ⟨rest, hrest⟩ :=
      queryRecordsLoop_trace_head env sel lf f (getRunScanReq kind sel lf) []
    exact ⟨rest, by rw [hrest]⟩

/-- Witness for C2: a TaskRun lookup whose direct fetch fails with the
NotFound marker falls back to the scan and finds the record, while a
failure without the marker surfaces the wrapped error with no list call. -/
theorem getRun_fallback_witness :
    getRun envFall 2 ResourceKind.taskrun selUID =
      ((queryRecords envFall 2 (getRunScanReq ResourceKind.taskrun selUID []) selUID).1,
       Call.getRecordCall (getRecordName selUID) ::
         (queryRecords envFall 2 (getRunScanReq ResourceKind.taskrun selUID []) selUID).2) ∧
    getRun envDenied 2 ResourceKind.taskrun selUID =
      (.error ("get record by UID: " ++ "rpc error: \"code\":7 permission denied"),
       [Call.getRecordCall (getRecordName selUID)]) ∧
    getRun envDenied 2 ResourceKind.pipelinerun selUID =
      (.error ("get record by UID: " ++ "rpc error: \"code\":7 permission denied"),
       [Call.getRecordCall (getRecordName selUID)]) :=
  ⟨(getRun_fallback envFall 2 ResourceKind.taskrun selUID []
      "rpc error: code = NotFound desc \"code\":5" (by decide) (by decide) (by decide)).1
      (by exact ⟨rfl, by decide⟩),
   (getRun_fallback envDenied 2 ResourceKind.taskrun selUID []
      "rpc error: \"code\":7 permission denied" (by decide) (by decide) (by decide)).2.1
      (by intro h; exact absurd h.2 (by decide)),
   (getRun_fallback envDenied 2 ResourceKind.pipelinerun selUID []
      "rpc error: \"code\":7 permission denied" (by decide) (by decide) (by decide)).2.1
      (by intro h; exact absurd h.1 (by decide))⟩

/-! ## Claim C8: the accumulated match list is bounded by two -/

/-- Page-level invariant: starting from at most one accumulated match,
`scanPage` returns at most two (it breaks as soon as the count exceeds
one). -/
theorem scanPage_length_le (env : Env) (sel : RunSelector) (lf : List (String × String)) :
    ∀ recs found m2, found.length ≤ 1 →
      scanPage env sel lf found recs = .ok m2 → m2.length ≤ 2 := by
  intro recs
  induction recs with
  | nil =>
    intro found m2 hle h
    simp only [scanPage, Except.ok.injEq] at h
    subst h
    omega
  | cons rec recs ih =>
    intro found m2 hle h
    rw [scanPage] at h
    rcases hdec : decodeRun env rec with e | run
    · simp [hdec] at h
    · simp only [hdec] at h
      split at h
      · exact ih found m2 hle h
      · split at h
        · exact ih found m2 hle h
        · split at h
          · exact ih found m2 hle h
          · split at h
            · exact ih found m2 hle h
            · rcases hval : Record.GetValue rec with e | pr
              · simp [hval] at h
              · obtain ⟨raw, r2⟩ := pr
                simp only [hval] at h
                split at h
                · obtain rfl := Except.ok.inj h
                  simp only [List.length_append, List.length_singleton]
                  omega
                · refine ih _ m2 ?_ h
                  rename_i hnot
                  simp only [List.length_append, List.length_singleton] at hnot ⊢
                  omega

/-- C8: throughout every `queryRecords` execution the accumulated match
list never holds more than two elements — each page scan stops adding
candidates once the count exceeds one, and the pagination loop (which
always starts from the empty list) therefore returns at most two matches,
so the ambiguity message can name at most two runs. -/
theorem queryRecords_matches_bounded :
    (∀ (env : Env) (sel : RunSelector) (lf : List (String × String)) recs found m2,
      found.length ≤ 1 → scanPage env sel lf found recs = .ok m2 → m2.length ≤ 2) ∧
    (∀ (env : Env) (sel : RunSelector) (lf : List (String × String)) fuel req m tr,
      queryRecordsLoop env sel lf fuel req [] = (.ok m, tr) → m.length ≤ 2) := by
  have hloop : ∀ (env : Env) (sel : RunSelector) (lf : List (String × String)) fuel req
      found m tr, found.length ≤ 1 →
      queryRecordsLoop env sel lf fuel req found = (.ok m, tr) → m.length ≤ 2 := by
    intro env sel lf fuel
    induction fuel with
    | zero =>
      intro req found m tr _ h
      simp only [queryRecordsLoop, Prod.mk.injEq] at h
      exact Except.noConfusion h.1
    | succ fuel ih =>
      intro req found m tr hle h
      rw [queryRecordsLoop] at h
      rcases henv : env.listRecords req with e | resp
      · simp [henv] at h
      · simp only [henv] at h
        rcases hscan : scanPage env sel lf found resp.records with e | found2
        · simp [hscan] at h
        · simp only [hscan] at h
          split at h
          · rw [Prod.mk.injEq] at h
            obtain rfl := Except.ok.inj h.1
            exact scanPage_length_le env sel lf resp.records found found2 hle hscan
          · rename_i hnot
            have hlen2 : ¬ 1 < found2.length := fun hgt => hnot (Or.inl hgt)
            rw [Prod.mk.injEq] at h
            refine ih { req with pageToken := resp.nextPageToken } found2 m
              (queryRecordsLoop env sel lf fuel
                { req with pageToken := resp.nextPageToken } found2).2 (by omega) ?_
            rw [Prod.ext_iff]
            exact ⟨h.1, rfl⟩
  refine ⟨fun env sel lf => scanPage_length_le env sel lf, ?_⟩
  intro env sel lf fuel req m tr h
  exact hloop env sel lf fuel req [] m tr (by simp) h

/-- Witness for C8: the three-matching-record store yields exactly two
accumulated matches. -/
theorem queryRecords_matches_bounded_witness :
    ([detailAmb "run-a", detailAmb "run-b"] : List RunDetail).length ≤ 2 :=
  queryRecords_matches_bounded.2 envAmb selAmb [] 3 reqAmb
    [detailAmb "run-a", detailAmb "run-b"] [Call.listRecordsCall reqAmb] (by decide)

/-! ## The scan refines the ordered filter -/

/-- On one page, starting from at most one accumulated match, `scanPage`
returns the first two elements of the accumulated matches followed by the
page's matching details in store order. -/
theorem scanPage_eq_take (env : Env) (sel : RunSelector) (lf : List (String × String)) :
    ∀ recs found ds, found.length ≤ 1 →
      pageDetails env sel lf recs = .ok ds →
      scanPage env sel lf found recs = .ok ((found ++ ds).take 2) := by
  intro recs
  induction recs with
  | nil =>
    intro found ds hle hp
    simp only [pageDetails, Except.ok.injEq] at hp
    subst hp
    simp only [scanPage, List.append_nil, Except.ok.injEq]
    exact (List.take_of_length_le (by omega)).symm
  | cons rec recs ih =>
    intro found ds hle hp
    rw [pageDetails] at hp
    rcases hdec : decodeRun env rec with e | run
    · simp [hdec] at hp
    · simp only [hdec] at hp
      rw [scanPage]
      simp only [hdec]
      by_cases h1 : sel.uid ≠ "" ∧ chooseString run.metadata.uid rec.uid ≠ sel.uid
      · have hrp : runPasses sel lf run rec = false := by
          simp only [runPasses, if_pos h1]
        rw [hrp] at hp
        simp only [Bool.false_eq_true, if_false] at hp
        rw [if_pos h1]
        exact ih found ds hle hp
      · rw [if_neg h1]
        by_cases h2 : ¬ matchesLabels run.metadata.labels lf
        · have hrp : runPasses sel lf run rec = false := by
            simp only [runPasses, if_neg h1, if_pos h2]
          rw [hrp] at hp
          simp only [Bool.false_eq_true, if_false] at hp
          rw [if_pos h2]
          exact ih found ds hle hp
        · rw [if_neg h2]
          by_cases h3 : sel.pfx ≠ "" ∧ ¬ hasPrefixStr run.metadata.name sel.pfx
          · have hrp : runPasses sel lf run rec = false := by
              simp only [runPasses, if_neg h1, if_neg h2, if_pos h3]
            rw [hrp] at hp
            simp only [Bool.false_eq_true, if_false] at hp
            rw [if_pos h3]
            exact ih found ds hle hp
          · rw [if_neg h3]
            by_cases h4 : sel.name ≠ "" ∧ run.metadata.name ≠ sel.name
            · have hrp : runPasses sel lf run rec = false := by
                simp only [runPasses, if_neg h1, if_neg h2, if_neg h3, if_pos h4]
              rw [hrp] at hp
              simp only [Bool.false_eq_true, if_false] at hp
              rw [if_pos h4]
              exact ih found ds hle hp
            · have hrp : runPasses sel lf run rec = true := by
                simp only [runPasses, if_neg h1, if_neg h2, if_neg h3, if_neg h4]
              rw [hrp] at hp
              simp only [if_true] at hp
              rw [if_neg h4]
              rcases hval : Record.GetValue rec with e | ⟨raw, r2⟩
              · simp [hval] at hp
              · simp only [hval] at hp
                rcases hrec : pageDetails env sel lf recs with e | ds2
                · simp [hrec] at hp
                · simp only [hrec, Except.ok.injEq] at hp
                  subst hp
                  dsimp only
                  split
                  · rename_i hlen
                    have hone : found.length = 1 := by
                      simp only [List.length_append, List.length_singleton] at hlen
                      omega
                    obtain ⟨x, rfl⟩ := List.length_eq_one.mp hone
                    rfl
                  · rename_i hlen
                    have hzero : found = [] := by
                      simp only [List.length_append, List.length_singleton] at hlen
                      exact List.length_eq_zero.mp (by omega)
                    subst hzero
                    have hstep := ih [({ summary := summarizeRun run rec, raw := raw, recordName := rec.name } : RunDetail)] ds2 (by simp) hrec
                    simpa using hstep

/-- Over a chain of served pages, starting from at most one accumulated
match, the pagination loop of `queryRecords` returns the first two
elements of the accumulated matches followed by all matching details in
store-reported order. -/
theorem queryRecordsLoop_serves (env : Env) (sel : RunSelector) (lf : List (String × String)) :
    ∀ pages req found ds fuel,
      servesPages env req pages →
      pagesDetails env sel lf pages = .ok ds →
      found.length ≤ 1 →
      pages.length ≤ fuel →
      ∃ tr, queryRecordsLoop env sel lf fuel req found =
        (.ok ((found ++ ds).take 2), tr) := by
  intro pages
  induction pages with
  | nil =>
    intro req found ds fuel hserve
    exact absurd hserve (by simp [servesPages])
  | cons page rest ih =>
    intro req found ds fuel hserve hdet hle hfuel
    obtain ⟨f, rfl⟩ : ∃ f, fuel = f + 1 := ⟨fuel - 1, by simp at hfuel; omega⟩
    rw [pagesDetails] at hdet
    rcases hpage : pageDetails env sel lf page with e | d
    · simp [hpage] at hdet
    · simp only [hpage] at hdet
      rcases hrest : pagesDetails env sel lf rest with e | ds2
      · simp [hrest] at hdet
      · simp only [hrest, Except.ok.injEq] at hdet
        subst hdet
        cases rest with
        | nil =>
          simp only [servesPages] at hserve
          simp only [pagesDetails, Except.ok.injEq] at hrest
          subst hrest
          rw [queryRecordsLoop]
          simp only [hserve]
          rw [scanPage_eq_take env sel lf page found d hle hpage]
          refine ⟨[Call.listRecordsCall req], ?_⟩
          simp
        | cons page2 rest2 =>
          obtain ⟨tok, htok, hlist, hserve2⟩ := hserve
          rw [queryRecordsLoop]
          simp only [hlist]
          rw [scanPage_eq_take env sel lf page found d hle hpage]
          dsimp only
          by_cases hlen : 1 < ((found ++ d).take 2).length
          · rw [if_pos (Or.inl hlen)]
            refine ⟨[Call.listRecordsCall req], ?_⟩
            have h2le : 2 ≤ (found ++ d).length := by
              have hlen2 := hlen
              rw [List.length_take] at hlen2
              omega
            rw [← List.append_assoc, List.take_append_of_le_length h2le]
          · have hcond : ¬(1 < ((found ++ d).take 2).length ∨ tok = "") := by
              rintro (hc | hc)
              · exact hlen hc
              · exact htok hc
            rw [if_neg hcond]
            have hshort : (found ++ d).length ≤ 1 := by
              have hlen2 := hlen
              rw [List.length_take] at hlen2
              omega
            have htake : (found ++ d).take 2 = found ++ d :=
              List.take_of_length_le (by omega)
            rw [htake]
            obtain ⟨tr2, htr2⟩ := ih { req with pageToken := tok } (found ++ d) ds2 f
              hserve2 hrest hshort (by simp only [List.length_cons] at hfuel ⊢; omega)
            refine ⟨Call.listRecordsCall req :: tr2, ?_⟩
            rw [htr2]
            simp [List.append_assoc]

/-! ## Claim C1: the resolution policy of the scan path -/

/-- C1 (amended): for a scan over a store serving `pages` whose matching
details in store-reported order are `ds` — zero matches fail with the
no-run-found error; exactly one match is returned; more than one match
with `SelectLast` returns the first match in store-reported order; more
than one match without `SelectLast` fails with an ambiguity error that
enumerates the namespace/name pairs of the first two matches only (the
scan stops accumulating after two). -/
theorem queryRecords_resolution_policy (env : Env) (fuel : Nat) (req : ListRecordsRequest)
    (sel : RunSelector) (lf : List (String × String)) (pages : List (List Record))
    (ds : List RunDetail)
    (hlf : parseLabelSelector sel.labelSelector = .ok lf)
    (hserve : servesPages env req pages)
    (hdet : pagesDetails env sel lf pages = .ok ds)
    (hfuel : pages.length ≤ fuel) :
    (ds = [] → (queryRecords env fuel req sel).1 =
        .error "no run found that matches the provided filters") ∧
    (∀ m, ds = [m] → (queryRecords env fuel req sel).1 = .ok m) ∧
    (∀ m1 m2 rest, ds = m1 :: m2 :: rest →
      (sel.selectLast = true → (queryRecords env fuel req sel).1 = .ok m1) ∧
      (sel.selectLast = false → (queryRecords env fuel req sel).1 =
        .error ("multiple run instances match the filters (" ++
          joinSep (", ") [m1.summary.nspace ++ "/" ++ m1.summary.name,
            m2.summary.nspace ++ "/" ++ m2.summary.name] ++
          "). Please refine the filters with an exact name or prefix."))) := by
  obtain ⟨tr, hloop⟩ :=
    queryRecordsLoop_serves env sel lf pages req [] ds fuel hserve hdet (by simp) hfuel
  rw [List.nil_append] at hloop
  refine ⟨?_, ?_, ?_⟩
  · rintro rfl
    simp only [queryRecords, hlf, hloop]
    rfl
  · rintro m rfl
    simp only [queryRecords, hlf, hloop]
    rfl
  · rintro m1 m2 rest rfl
    constructor
    · intro hsl
      simp only [queryRecords, hlf, hloop, List.take, hsl, if_true]
    · intro hsl
      simp only [queryRecords, hlf, hloop, List.take, hsl, Bool.false_eq_true, if_false,
        List.map_cons, List.map_nil]

/-- Counterexample to C1 as frozen: with three stored records all
matching the in-memory predicates and `SelectLast` disabled, the
ambiguity message enumerates only the first two runs — `ns/run-c`
matches but is absent from the message. -/
theorem queryRecords_resolution_policy_counterexample :
    (queryRecords envAmb 3 reqAmb selAmb).1 =
      .error "multiple run instances match the filters (ns/run-a, ns/run-b). Please refine the filters with an exact name or prefix." ∧
    runPasses selAmb [] (mkSimpleRun "run-c") (recAmb "run-c") = true ∧
    pageDetails envAmb selAmb [] [recAmb "run-a", recAmb "run-b", recAmb "run-c"] =
      .ok [detailAmb "run-a", detailAmb "run-b", detailAmb "run-c"] ∧
    containsSubstr "multiple run instances match the filters (ns/run-a, ns/run-b). Please refine the filters with an exact name or prefix." "run-c" = false :=
  ⟨by decide, by decide, by decide, by decide⟩

/-- Witness for C1: with `SelectLast` enabled and three matches, the
first match in store-reported order is returned. -/
theorem queryRecords_resolution_policy_witness :
    (queryRecords envAmb 3 reqAmb selAmbLast).1 = .ok (detailAmb "run-a") :=
  ((queryRecords_resolution_policy envAmb 3 reqAmb selAmbLast []
      [[recAmb "run-a", recAmb "run-b", recAmb "run-c"]]
      [detailAmb "run-a", detailAmb "run-b", detailAmb "run-c"]
      (by decide) (by unfold servesPages; decide) (by decide) (by decide)).2.2
      (detailAmb "run-a") (detailAmb "run-b") [detailAmb "run-c"] rfl).1 rfl

/-! ## listRuns lemmas (for C3 and C10) -/

/-- The `int32` conversion is the identity on the int32 range. -/
theorem toInt32_eq_of_lt (n : Int) (h1 : -(2 ^ 31) ≤ n) (h2 : n < 2 ^ 31) :
    toInt32 n = n := by
  unfold toInt32
  omega

/-- The `int32` conversion never increases a non-negative value. -/
theorem toInt32_le (n : Int) (h : 0 ≤ n) : toInt32 n ≤ n := by
  unfold toInt32
  omega

/-- The inner loop of `listRuns` keeps the summary count at the limit or
below, and strictly below it unless the early-return flag is set. -/
theorem processPage_length (env : Env) (lf : List (String × String)) (pfx : String)
    (limit : Int) : ∀ recs acc s2 reached, (acc.length : Int) < limit →
      processPage env lf pfx limit acc recs = .ok (s2, reached) →
      (s2.length : Int) ≤ limit ∧ (reached = false → (s2.length : Int) < limit) := by
  intro recs
  induction recs with
  | nil =>
    intro acc s2 reached hlt h
    simp only [processPage, Except.ok.injEq, Prod.mk.injEq] at h
    obtain ⟨rfl, rfl⟩ := h
    exact ⟨le_of_lt hlt, fun _ => hlt⟩
  | cons rec recs ih =>
    intro acc s2 reached hlt h
    rw [processPage] at h
    rcases hdec : decodeRun env rec with e | run
    · simp [hdec] at h
    · simp only [hdec] at h
      split at h
      · exact ih acc s2 reached hlt h
      · split at h
        · exact ih acc s2 reached hlt h
        · split at h
          · rename_i hreach
            simp only [Except.ok.injEq, Prod.mk.injEq] at h
            obtain ⟨rfl, rfl⟩ := h
            have hlen : ((acc ++ [summarizeRun run rec]).length : Int) =
                (acc.length : Int) + 1 := by
              simp
            refine ⟨?_, fun hfalse => by cases hfalse⟩
            omega
          · rename_i hreach
            have hlen : ((acc ++ [summarizeRun run rec]).length : Int) =
                (acc.length : Int) + 1 := by
              simp
            exact ih _ s2 reached (by omega) h

/-- The pagination loop of `listRuns` never returns more summaries than
the limit. -/
theorem listRunsLoop_length_le (env : Env) (lf : List (String × String)) (pfx : String)
    (limit : Int) : ∀ fuel req acc l tr, (acc.length : Int) < limit →
      listRunsLoop env lf pfx limit fuel req acc = (.ok l, tr) →
      (l.length : Int) ≤ limit := by
  intro fuel
  induction fuel with
  | zero =>
    intro req acc l tr _ h
    simp only [listRunsLoop, Prod.mk.injEq] at h
    exact Except.noConfusion h.1
  | succ fuel ih =>
    intro req acc l tr hlt h
    rw [listRunsLoop] at h
    rcases henv : env.listRecords req with e | resp
    · simp [henv] at h
    · simp only [henv] at h
      rcases hpp : processPage env lf pfx limit acc resp.records with e | pr
      · simp [hpp] at h
      · obtain ⟨s2, reached⟩ := pr
        obtain ⟨hle, hstrict⟩ :=
          processPage_length env lf pfx limit resp.records acc s2 reached hlt hpp
        simp only [hpp] at h
        split at h
        · rw [Prod.mk.injEq] at h
          obtain rfl := Except.ok.inj h.1
          exact hle
        · split at h
          · rw [Prod.mk.injEq] at h
            obtain rfl := Except.ok.inj h.1
            exact hle
          · split at h
            · rw [Prod.mk.injEq] at h
              obtain rfl := Except.ok.inj h.1
              exact hle
            · rename_i hreach _ _
              rw [Prod.mk.injEq] at h
              exact ih _ s2 l _ (hstrict (by simpa using hreach))
                (Prod.ext_iff.mpr ⟨h.1, rfl⟩)

/-- Along the `listRuns` pagination loop, every issued request's page
size stays within the bound it started with, as long as that bound is at
least every later shrunken value; stated for the concrete bound 200. -/
theorem listRunsLoop_pageSize_le (env : Env) (lf : List (String × String)) (pfx : String)
    (limit : Int) : ∀ fuel req acc, req.pageSize ≤ 200 →
      ∀ r n, (r, n) ∈ (listRunsLoop env lf pfx limit fuel req acc).2 →
        r.pageSize ≤ 200 := by
  intro fuel
  induction fuel with
  | zero =>
    intro req acc hps r n hmem
    simp [listRunsLoop] at hmem
  | succ fuel ih =>
    intro req acc hps r n hmem
    rw [listRunsLoop] at hmem
    rcases henv : env.listRecords req with e | resp
    · simp only [henv] at hmem
      have h := List.mem_singleton.mp hmem
      rw [Prod.mk.injEq] at h
      obtain ⟨rfl, rfl⟩ := h
      exact hps
    · simp only [henv] at hmem
      rcases hpp : processPage env lf pfx limit acc resp.records with e | pr
      · simp only [hpp] at hmem
        have h := List.mem_singleton.mp hmem
        rw [Prod.mk.injEq] at h
        obtain ⟨rfl, rfl⟩ := h
        exact hps
      · obtain ⟨s2, reached⟩ := pr
        simp only [hpp] at hmem
        split at hmem
        · have h := List.mem_singleton.mp hmem
          rw [Prod.mk.injEq] at h
          obtain ⟨rfl, rfl⟩ := h
          exact hps
        · split at hmem
          · have h := List.mem_singleton.mp hmem
            rw [Prod.mk.injEq] at h
            obtain ⟨rfl, rfl⟩ := h
            exact hps
          · split at hmem
            · have h := List.mem_singleton.mp hmem
              rw [Prod.mk.injEq] at h
              obtain ⟨rfl, rfl⟩ := h
              exact hps
            · rcases List.mem_cons.mp hmem with h | h
              · rw [Prod.mk.injEq] at h
                obtain ⟨rfl, rfl⟩ := h
                exact hps
              · rename_i hrem
                refine ih _ s2 ?_ r n h
                split
                · rename_i hless
                  simp only
                  rw [toInt32_eq_of_lt _ (by omega) (by omega)]
                  omega
                · exact hps

/-- Along the `listRuns` pagination loop, when the limit fits in int32,
every issued request's page size is bounded by the remaining budget
(the limit minus the summaries accumulated when the request was issued). -/
theorem listRunsLoop_shrink (env : Env) (lf : List (String × String)) (pfx : String)
    (limit : Int) (hlim : limit < 2 ^ 31) :
    ∀ fuel req acc, req.pageSize ≤ limit - (acc.length : Int) →
      ∀ r n, (r, n) ∈ (listRunsLoop env lf pfx limit fuel req acc).2 →
        r.pageSize ≤ limit - (n : Int) := by
  intro fuel
  induction fuel with
  | zero =>
    intro req acc hps r n hmem
    simp [listRunsLoop] at hmem
  | succ fuel ih =>
    intro req acc hps r n hmem
    rw [listRunsLoop] at hmem
    rcases henv : env.listRecords req with e | resp
    · simp only [henv] at hmem
      have h := List.mem_singleton.mp hmem
      rw [Prod.mk.injEq] at h
      obtain ⟨rfl, rfl⟩ := h
      exact hps
    · simp only [henv] at hmem
      rcases hpp : processPage env lf pfx limit acc resp.records with e | pr
      · simp only [hpp] at hmem
        have h := List.mem_singleton.mp hmem
        rw [Prod.mk.injEq] at h
        obtain ⟨rfl, rfl⟩ := h
        exact hps
      · obtain ⟨s2, reached⟩ := pr
        simp only [hpp] at hmem
        split at hmem
        · have h := List.mem_singleton.mp hmem
          rw [Prod.mk.injEq] at h
          obtain ⟨rfl, rfl⟩ := h
          exact hps
        · split at hmem
          · have h := List.mem_singleton.mp hmem
            rw [Prod.mk.injEq] at h
            obtain ⟨rfl, rfl⟩ := h
            exact hps
          · split at hmem
            · have h := List.mem_singleton.mp hmem
              rw [Prod.mk.injEq] at h
              obtain ⟨rfl, rfl⟩ := h
              exact hps
            · rcases List.mem_cons.mp hmem with h | h
              · rw [Prod.mk.injEq] at h
                obtain ⟨rfl, rfl⟩ := h
                exact hps
              · rename_i hrem
                refine ih _ s2 ?_ r n h
                split
                · rename_i hless
                  simp only
                  rw [toInt32_eq_of_lt _ (by omega) (by omega)]
                · simp only
                  omega

/-- With positive fuel, the first trace entry of the `listRuns` loop is
the request it was started with, issued at the current summary count. -/
theorem listRunsLoop_trace_head (env : Env) (lf : List (String × String)) (pfx : String)
    (limit : Int) (fuel : Nat) (req : ListRecordsRequest) (acc : List RunSummary) :
    ∃ rest, (listRunsLoop env lf pfx limit (fuel + 1) req acc).2 =
      (req, acc.length) :: rest := by
  rw [listRunsLoop]
  split
  · exact ⟨[], rfl⟩
  · split
    · exact ⟨[], rfl⟩
    · split
      · exact ⟨[], rfl⟩
      · split
        · exact ⟨[], rfl⟩
        · dsimp only
          split
          · exact ⟨[], rfl⟩
          · exact ⟨_, rfl⟩

/-! ## Claim C3: bounded pagination walking -/

/-- C3: against the concrete store serving pages of three matching
records, a `listRuns` call with limit 5 issues exactly two list calls
with page sizes 5 and 2 (the second request issued after 3 accumulated
summaries) and returns exactly five summaries; in general an `ok` result
never exceeds the effective limit, and when the limit fits in int32
every issued request's page size is bounded by the remaining budget. -/
theorem listRuns_pagination :
    ((listRuns envC3 5 ResourceKind.pipelinerun optsC3).2.map
        (fun p => (p.1.pageSize, p.2)) = [(5, 0), (2, 3)] ∧
      (listRuns envC3 5 ResourceKind.pipelinerun optsC3).1.toOption.map List.length =
        some 5) ∧
    (∀ (env : Env) (fuel : Nat) (kind : ResourceKind) (opts : ListOptions) l,
      (listRuns env fuel kind opts).1 = .ok l →
      (l.length : Int) ≤ (if opts.limit ≤ 0 then defaultListLimit else opts.limit)) ∧
    (∀ (env : Env) (fuel : Nat) (kind : ResourceKind) (opts : ListOptions) r n,
      opts.limit < 2 ^ 31 →
      (r, n) ∈ (listRuns env fuel kind opts).2 →
      r.pageSize ≤ (if opts.limit ≤ 0 then defaultListLimit else opts.limit) - (n : Int)) := by
  refine ⟨⟨by decide, by decide⟩, ?_, ?_⟩
  · intro env fuel kind opts l h
    rcases hp : parseLabelSelector opts.labelSelector with e | lf
    · simp only [listRuns, hp] at h
      exact Except.noConfusion h
    · simp only [listRuns, hp] at h
      refine listRunsLoop_length_le env lf opts.pfx _ fuel _ [] l _ ?_
        (Prod.ext_iff.mpr ⟨h, rfl⟩)
      have hd : defaultListLimit = 50 := rfl
      simp only [List.length_nil, Nat.cast_zero]
      split <;> omega
  · intro env fuel kind opts r n hlim hmem
    rcases hp : parseLabelSelector opts.labelSelector with e | lf
    · simp only [listRuns, hp, List.not_mem_nil] at hmem
    · simp only [listRuns, hp] at hmem
      have hd : defaultListLimit = 50 := rfl
      have hm : maxPageSize = 200 := rfl
      refine listRunsLoop_shrink env lf opts.pfx _ ?_ fuel _ [] ?_ r n hmem
      · split <;> omega
      · simp only [List.length_nil, Nat.cast_zero, sub_zero]
        by_cases hc : opts.limit ≤ 0
        · simp only [hc, if_true]
          decide
        · simp only [hc, if_false]
          have ht := toInt32_le opts.limit (by omega)
          split <;> omega

/-- A default request for trace indexing. -/
def reqDefault : ListRecordsRequest :=
  { parent := "", filter := "", orderBy := "", pageSize := 0, pageToken := "", fields := "" }

/-- The summaries returned in the concrete pagination scenario. -/
def c3list : List RunSummary :=
  ((listRuns envC3 5 ResourceKind.pipelinerun optsC3).1).toOption.getD []

/-- The second issued request (with its accumulated count) in the
concrete pagination scenario. -/
def c3snd : ListRecordsRequest × Nat :=
  (listRuns envC3 5 ResourceKind.pipelinerun optsC3).2.getD 1 (reqDefault, 0)

/-- Witness for C3: the general bound and shrink statements applied to
the concrete pagination scenario. -/
theorem listRuns_pagination_witness :
    ((c3list.length : Int) ≤ (if optsC3.limit ≤ 0 then defaultListLimit else optsC3.limit)) ∧
    c3snd.1.pageSize ≤
      (if optsC3.limit ≤ 0 then defaultListLimit else optsC3.limit) - (c3snd.2 : Int) :=
  ⟨listRuns_pagination.2.1 envC3 5 ResourceKind.pipelinerun optsC3 c3list (by decide),
   listRuns_pagination.2.2 envC3 5 ResourceKind.pipelinerun optsC3 c3snd.1 c3snd.2
     (by decide) (by decide)⟩

/-! ## Claim C10: limit defaulting and the first request's page size -/

/-- C10 (amended): page sizes issued by `listRuns` never exceed 200, and
— whenever the caller-supplied limit is below `2^31` so the `int32`
conversion does not wrap — the first list request's page size equals the
effective limit (the default of 50 when the caller's limit is zero or
negative) capped at 200. -/
theorem listRuns_limits (env : Env) (fuel : Nat) (kind : ResourceKind) (opts : ListOptions)
    (lf : List (String × String))
    (hlf : parseLabelSelector opts.labelSelector = .ok lf)
    (hfuel : 0 < fuel) :
    (∀ r n, (r, n) ∈ (listRuns env fuel kind opts).2 → r.pageSize ≤ 200) ∧
    (opts.limit < 2 ^ 31 →
      ∃ rest, (listRuns env fuel kind opts).2 =
        ({ parent := parentForNamespace opts.nspace
           filter := buildFilterExpression kind lf "" ""
           orderBy := "create_time desc"
           pageSize := if 200 < (if opts.limit ≤ 0 then defaultListLimit else opts.limit)
             then 200 else (if opts.limit ≤ 0 then defaultListLimit else opts.limit)
           pageToken := ""
           fields := listFields }, 0) :: rest) := by
  constructor
  · intro r n hmem
    simp only [listRuns, hlf] at hmem
    refine listRunsLoop_pageSize_le env lf opts.pfx _ fuel _ [] ?_ r n hmem
    simp only
    by_cases hc : opts.limit ≤ 0
    · simp only [hc, if_true]
      decide
    · simp only [hc, if_false]
      have hm : maxPageSize = 200 := rfl
      split <;> omega
  · intro hlim
    obtain ⟨f, rfl⟩ : ∃ f, fuel = f + 1 := ⟨fuel - 1, by omega⟩
    simp only [listRuns, hlf]
    have hd : defaultListLimit = 50 := rfl
    have heff : toInt32 (if opts.limit ≤ 0 then defaultListLimit else opts.limit) =
        (if opts.limit ≤ 0 then defaultListLimit else opts.limit) := by
      refine toInt32_eq_of_lt _ ?_ ?_ <;> split <;> omega
    rw [heff]
    have hmax : (maxPageSize : Int) = 200 := rfl
    rw [hmax]
    obtain ⟨rest, hrest⟩ := listRunsLoop_trace_head env lf opts.pfx
      (if opts.limit ≤ 0 then defaultListLimit else opts.limit) f
      { parent := parentForNamespace opts.nspace
        filter := buildFilterExpression kind lf "" ""
        orderBy := "create_time desc"
        pageSize := if 200 < (if opts.limit ≤ 0 then defaultListLimit else opts.limit)
          then 200 else (if opts.limit ≤ 0 then defaultListLimit else opts.limit)
        pageToken := ""
        fields := listFields } []
    exact ⟨rest, hrest⟩

/-- Counterexample to C10 as frozen: with limit `2^31` the `int32`
conversion wraps and the first request's page size is `-2^31`, not the
claimed `min(limit, 200) = 200`. -/
theorem listRuns_limits_counterexample :
    ((listRuns envC3 1 ResourceKind.pipelinerun
        { nspace := "ns", labelSelector := "", pfx := "", limit := 2 ^ 31 }).2.map
      (fun p => p.1.pageSize)) = [-(2 ^ 31)] ∧ ((-(2 ^ 31) : Int) ≠ 200) :=
  ⟨by decide, by decide⟩

/-- Witness for C10 at the concrete pagination scenario. -/
theorem listRuns_limits_witness :
    c3snd.1.pageSize ≤ 200 :=
  (listRuns_limits envC3 5 ResourceKind.pipelinerun optsC3 [] (by decide) (by decide)).1
    c3snd.1 c3snd.2 (by decide)

/-! ## Claim C9: empty selector segments are skipped -/

/-- C9: the parser loop ignores segments that are empty after trimming —
parsing a segment list equals parsing the list with the blank segments
filtered out — so trailing or consecutive commas are not reported as
malformed pairs; concretely, a trailing comma, a doubled comma, and a
leading comma all parse successfully. -/
theorem parseLabelSelector_skips_empty :
    (∀ segs res, parsePairs segs res =
      parsePairs (segs.filter (fun s => !(trimSpace s == ""))) res) ∧
    parseLabelSelector "a=b," = .ok [("a", "b")] ∧
    parseLabelSelector "a=b,,c=d" = .ok [("a", "b"), ("c", "d")] ∧
    parseLabelSelector ",a=b" = .ok [("a", "b")] := by
  refine ⟨?_, by decide, by decide, by decide⟩
  intro segs
  induction segs with
  | nil => intro res; rfl
  | cons seg rest ih =>
    intro res
    by_cases hc : trimSpace seg = ""
    · have hfil : (!(trimSpace seg == "")) = false := by
        simp [hc]
      simp only [parsePairs, List.filter_cons, hfil, Bool.false_eq_true, if_false, hc,
        if_pos]
      exact ih res
    · have hfil : (!(trimSpace seg == "")) = true := by
        simp [hc]
      simp only [List.filter_cons, hfil, if_true]
      rw [parsePairs]
      conv_rhs => rw [parsePairs]
      rw [if_neg hc, if_neg hc]
      rcases hs : splitN2Char '=' (trimSpace seg).data with ⟨k, vo⟩
      cases vo with
      | none => rfl
      | some v =>
        dsimp only
        split
        · rfl
        · exact ih (mapInsert res (trimSpace (String.mk k)) (trimSpace (String.mk v)))

/-! ## Claim C7: the server-side filter expression -/

/-- Per-character escaping: backslash and double quote get a backslash
prefix, everything else is unchanged. -/
def escChar (c : Char) : List Char :=
  if c = '\\' then ['\\', '\\'] else if c = '\"' then ['\\', '\"'] else [c]

/-- The function `replaceAllChar` distributes over list append. -/
theorem replaceAllChar_append (old : Char) (new : List Char) :
    ∀ l1 l2, replaceAllChar old new (l1 ++ l2) =
      replaceAllChar old new l1 ++ replaceAllChar old new l2 := by
  intro l1 l2
  induction l1 with
  | nil => rfl
  | cons c cs ih =>
    simp only [List.cons_append, replaceAllChar, List.append_eq, ih, List.append_assoc]

/-- The two sequential `ReplaceAll` passes of `escapeCELString` equal a
single per-character escaping pass. -/
theorem escapeCELString_chars (s : String) :
    escapeCELString s = String.mk ((s.data.map escChar).flatten) := by
  show String.mk (replaceAllChar '\"' ['\\', '\"'] (replaceAllChar '\\' ['\\', '\\'] s.data)) =
    String.mk ((s.data.map escChar).flatten)
  congr 1
  induction s.data with
  | nil => rfl
  | cons c cs ih =>
    simp only [replaceAllChar, replaceAllChar_append, List.map_cons, List.flatten, ih]
    congr 1
    by_cases hb : c = '\\'
    · subst hb
      decide
    · by_cases hq : c = '\"'
      · subst hq
        decide
      · simp only [escChar, if_neg hb, if_neg hq, replaceAllChar, if_neg hb, if_neg hq]
        rfl

/-- Modelled from the spec: the filter expression as §4.2 describes it —
the AND of an OR-clause over the kind's type variants, one equality
clause per label, and an exact-name clause when a name is given, with
every value escaped. -/
def buildFilterExpressionSpec (kind : ResourceKind) (labels : List (String × String))
    (exactName : String) : String :=
  joinSep (" && ")
    (["(" ++ joinSep (" || ") ((resourceTypeFilters kind).map
        (fun t => "data_type==\"" ++ escapeCELString t ++ "\"")) ++ ")"]
      ++ labels.map (fun kv => "data.metadata.labels[\"" ++ escapeCELString kv.1 ++
          "\"]==\"" ++ escapeCELString kv.2 ++ "\"")
      ++ (if exactName = "" then [] else
          ["data.metadata.name==\"" ++ escapeCELString exactName ++ "\""]))

/-- C7: the produced expression never depends on the `uid` argument (UID
matching is left entirely to the in-memory filter), it equals the
spec-described AND of the type OR-clause, label clauses and optional
exact-name clause, and every interpolated value is escaped character by
character (backslash and quote get a backslash prefix). -/
theorem buildFilterExpression_spec (kind : ResourceKind) (labels : List (String × String))
    (exactName uid : String) :
    buildFilterExpression kind labels exactName uid =
      buildFilterExpression kind labels exactName "" ∧
    buildFilterExpression kind labels exactName uid =
      buildFilterExpressionSpec kind labels exactName ∧
    (∀ s, escapeCELString s = String.mk ((s.data.map escChar).flatten)) := by
  refine ⟨rfl, ?_, escapeCELString_chars⟩
  by_cases hn : exactName = "" <;>
    cases kind <;>
      simp [buildFilterExpression, buildFilterExpressionSpec, hn, resourceTypeFilters]

/-! ## Claim C6: the label-selector parser -/

/-- Appending strings concatenates the character lists. -/
theorem strData_append (a b : String) : (a ++ b).data = a.data ++ b.data := by
  cases a
  cases b
  rfl

/-- Rebuilding a string from its characters is the identity. -/
theorem mkData_eq (s : String) : String.mk s.data = s := by
  cases s
  rfl

/-- Trimming a string of space characters yields the empty list. -/
theorem trimSpaceList_eq_nil (l : List Char) (h : ∀ c ∈ l, isSpaceChar c = true) :
    trimSpaceList l = [] := by
  unfold trimSpaceList
  rw [List.dropWhile_eq_nil_iff.mpr h]
  rfl

/-- Trimming is the identity on strings with no space characters. -/
theorem trimSpaceList_eq_self (l : List Char) (h : ∀ c ∈ l, isSpaceChar c = false) :
    trimSpaceList l = l := by
  unfold trimSpaceList
  have h1 : l.dropWhile isSpaceChar = l := by
    cases l with
    | nil => rfl
    | cons c cs =>
      have hc := h c (List.mem_cons_self c cs)
      rw [List.dropWhile_cons_of_neg (by simp [hc])]
  rw [h1]
  have h2 : l.reverse.dropWhile isSpaceChar = l.reverse := by
    cases hr : l.reverse with
    | nil => rfl
    | cons c cs =>
      have hc : c ∈ l := by
        rw [← List.mem_reverse, hr]
        exact List.mem_cons_self c cs
      rw [List.dropWhile_cons_of_neg (by simp [h c hc])]
  rw [h2, List.reverse_reverse]

/-- Splitting an input without the separator gives one part. -/
theorem splitChar_no_sep (sep : Char) : ∀ l, sep ∉ l → splitChar sep l = [l] := by
  intro l
  induction l with
  | nil => intro _; rfl
  | cons c cs ih =>
    intro h
    rw [splitChar, if_neg (fun hc => h (by rw [← hc]; exact List.mem_cons_self c cs))]
    rw [ih (fun hm => h (List.mem_cons_of_mem _ hm))]

/-- Splitting peels one separator-free part off the front. -/
theorem splitChar_append (sep : Char) : ∀ l1 rest, sep ∉ l1 →
    splitChar sep (l1 ++ sep :: rest) = l1 :: splitChar sep rest := by
  intro l1
  induction l1 with
  | nil =>
    intro rest _
    rw [List.nil_append, splitChar, if_pos rfl]
  | cons c cs ih =>
    intro rest h
    rw [List.cons_append, splitChar,
      if_neg (fun hc => h (by rw [← hc]; exact List.mem_cons_self c cs)),
      ih rest (fun hm => h (List.mem_cons_of_mem _ hm))]

/-- Behaviour of `splitN2Char` on `key=value` with an equals-free key. -/
theorem splitN2Char_eq (v : List Char) : ∀ k, '=' ∉ k →
    splitN2Char '=' (k ++ '=' :: v) = (k, some v) := by
  intro k
  induction k with
  | nil => intro _; simp [splitN2Char]
  | cons c cs ih =>
    intro h
    rw [List.cons_append, splitN2Char,
      if_neg (fun hc => h (by rw [← hc]; exact List.mem_cons_self c cs)),
      ih (fun hm => h (List.mem_cons_of_mem _ hm))]

/-- Every character of a joined selector string is a comma or a character
of one of the parts. -/
theorem joinSep_data_mem : ∀ (strs : List String) (c : Char),
    c ∈ (joinSep "," strs).data → c = ',' ∨ ∃ s ∈ strs, c ∈ s.data := by
  intro strs
  induction strs with
  | nil => intro c h; cases h
  | cons x rest ih =>
    intro c h
    cases rest with
    | nil =>
      exact Or.inr ⟨x, List.mem_singleton_self x, h⟩
    | cons y ys =>
      rw [show joinSep "," (x :: y :: ys) = x ++ "," ++ joinSep "," (y :: ys) from rfl,
        strData_append, strData_append] at h
      rcases List.mem_append.mp h with h1 | h1
      · rcases List.mem_append.mp h1 with h2 | h2
        · exact Or.inr ⟨x, List.mem_cons_self x _, h2⟩
        · exact Or.inl (List.mem_singleton.mp h2)
      · rcases ih c h1 with h2 | ⟨s, hs, hcs⟩
        · exact Or.inl h2
        · exact Or.inr ⟨s, List.mem_cons_of_mem _ hs, hcs⟩

/-- Splitting a joined list of comma-free parts recovers the parts. -/
theorem splitChar_joinSep : ∀ strs : List String, strs ≠ [] →
    (∀ s ∈ strs, ',' ∉ s.data) →
    (splitChar ',' (joinSep "," strs).data).map String.mk = strs := by
  intro strs
  induction strs with
  | nil => intro h; exact absurd rfl h
  | cons x rest ih =>
    intro _ hns
    cases rest with
    | nil =>
      show (splitChar ',' x.data).map String.mk = [x]
      rw [splitChar_no_sep ',' x.data (hns x (List.mem_singleton_self x))]
      simp [mkData_eq]
    | cons y ys =>
      show (splitChar ','
        ((x ++ "," ++ joinSep "," (y :: ys))).data).map String.mk = x :: y :: ys
      rw [strData_append, strData_append, List.append_assoc,
        show ((",".data) ++ (joinSep "," (y :: ys)).data) =
          ',' :: (joinSep "," (y :: ys)).data from rfl,
        splitChar_append ',' x.data _ (hns x (List.mem_cons_self x _)),
        List.map_cons, mkData_eq,
        ih (by simp) (fun s hs => hns s (List.mem_cons_of_mem _ hs))]

/-- The parser loop processes an appended segment list sequentially. -/
theorem parsePairs_append : ∀ xs ys res, parsePairs (xs ++ ys) res =
    match parsePairs xs res with
    | .ok r => parsePairs ys r
    | .error e => .error e := by
  intro xs
  induction xs with
  | nil => intro ys res; rfl
  | cons seg xs ih =>
    intro ys res
    rw [List.cons_append, parsePairs]
    conv_rhs => rw [parsePairs]
    by_cases h : trimSpace seg = ""
    · rw [if_pos h, if_pos h]
      exact ih ys res
    · rw [if_neg h, if_neg h]
      rcases hs : splitN2Char '=' (trimSpace seg).data with ⟨kk, vo⟩
      cases vo with
      | none => rfl
      | some v =>
        dsimp only
        split
        · rfl
        · exact ih ys _

/-- Inserting an absent key appends the binding. -/
theorem mapInsert_append (m : List (String × String)) (k v : String)
    (h : containsKey m k = false) : mapInsert m k v = m ++ [(k, v)] := by
  simp only [containsKey] at h
  simp [mapInsert, h]

/-- Folding insertions of fresh, distinct keys appends the bindings. -/
theorem foldl_mapInsert : ∀ (L : List (String × String)) (M : List (String × String)),
    (∀ kv ∈ L, containsKey M kv.1 = false) → (L.map Prod.fst).Nodup →
    L.foldl (fun m kv => mapInsert m kv.1 kv.2) M = M ++ L := by
  intro L
  induction L with
  | nil => intro M _ _; simp
  | cons kv L ih =>
    intro M hM hnd
    simp only [List.map_cons, List.nodup_cons] at hnd
    simp only [List.foldl_cons]
    have h1 : mapInsert M kv.1 kv.2 = M ++ [kv] := by
      rw [mapInsert_append M kv.1 kv.2 (hM kv (List.mem_cons_self kv L))]
    rw [h1, ih (M ++ [kv]) ?_ hnd.2]
    · rw [List.append_assoc]
      rfl
    · intro kv2 h2
      simp only [containsKey, List.any_append, Bool.or_eq_false_iff]
      refine ⟨by simpa only [containsKey] using hM kv2 (List.mem_cons_of_mem _ h2), ?_⟩
      simp only [List.any_cons, List.any_nil, Bool.or_false]
      have hne : kv.1 ≠ kv2.1 := by
        intro he
        exact hnd.1 (he ▸ List.mem_map_of_mem Prod.fst h2)
      simp [hne]

/-- A well-formed pair: non-empty key and value; the key contains no
comma, equals sign, or space; the value contains no comma or space
(it may contain an equals sign, which `SplitN` leaves in the value). -/
def plainPair (kv : String × String) : Prop :=
  kv.1 ≠ "" ∧ kv.2 ≠ "" ∧
  (∀ c ∈ kv.1.data, c ≠ ',' ∧ c ≠ '=' ∧ isSpaceChar c = false) ∧
  (∀ c ∈ kv.2.data, c ≠ ',' ∧ isSpaceChar c = false)

/-- Well-formedness of a pair is decidable, so concrete instances can be checked. -/
instance plainPairDecidable (kv : String × String) : Decidable (plainPair kv) := by
  unfold plainPair
  infer_instance

/-- The selector string rendering a list of pairs. -/
def renderSelector (L : List (String × String)) : String :=
  joinSep "," (L.map (fun kv => kv.1 ++ "=" ++ kv.2))

/-- The characters of a `key=value` segment. -/
theorem segment_data (k v : String) : (k ++ "=" ++ v).data = k.data ++ '=' :: v.data := by
  rw [strData_append, strData_append]
  simp

/-- The parser loop maps a rendered well-formed pair list to the folded
insertions. -/
theorem parsePairs_render : ∀ (L : List (String × String)) res,
    (∀ kv ∈ L, plainPair kv) →
    parsePairs (L.map (fun kv => kv.1 ++ "=" ++ kv.2)) res =
      .ok (L.foldl (fun m kv => mapInsert m kv.1 kv.2) res) := by
  intro L
  induction L with
  | nil => intro res _; rfl
  | cons kv L ih =>
    intro res hp
    obtain ⟨hk, hv, hkc, hvc⟩ := hp kv (List.mem_cons_self kv L)
    simp only [List.map_cons, List.foldl_cons]
    rw [parsePairs]
    have hseg := segment_data kv.1 kv.2
    have hsegchars : ∀ c ∈ (kv.1 ++ "=" ++ kv.2).data, isSpaceChar c = false := by
      intro c hc
      rw [hseg] at hc
      rcases List.mem_append.mp hc with h | h
      · exact (hkc c h).2.2
      · rcases List.mem_cons.mp h with rfl | h
        · decide
        · exact (hvc c h).2
    have htrim : trimSpace (kv.1 ++ "=" ++ kv.2) = kv.1 ++ "=" ++ kv.2 := by
      unfold trimSpace
      rw [trimSpaceList_eq_self _ hsegchars, mkData_eq]
    rw [htrim]
    have hne : ¬ (kv.1 ++ "=" ++ kv.2) = "" := by
      intro he
      have hd : (kv.1 ++ "=" ++ kv.2).data = [] := by rw [he]
      rw [hseg] at hd
      simp at hd
    rw [if_neg hne, hseg,
      splitN2Char_eq kv.2.data kv.1.data (fun hm => (hkc '=' hm).2.1 rfl)]
    dsimp only
    have htk : trimSpace (String.mk kv.1.data) = kv.1 := by
      unfold trimSpace
      simp only
      rw [trimSpaceList_eq_self _ (fun c hc => (hkc c hc).2.2), mkData_eq]
    have htv : trimSpace (String.mk kv.2.data) = kv.2 := by
      unfold trimSpace
      simp only
      rw [trimSpaceList_eq_self _ (fun c hc => (hvc c hc).2), mkData_eq]
    rw [htk, htv, if_neg (by push_neg; exact ⟨hk, hv⟩)]
    exact ih (mapInsert res kv.1 kv.2) (fun kv2 h2 => hp kv2 (List.mem_cons_of_mem _ h2))

/-- C6: a whitespace-only selector parses to the empty mapping; a
well-formed rendered `key=value` list parses to exactly those entries
(later duplicates overwrite earlier ones — shown concretely — and
whitespace around commas and equals signs is trimmed — shown
concretely); a pair lacking `=`, or with an empty key or value, makes
the parser fail with an error naming that (trimmed) pair. -/
theorem parseLabelSelector_correct :
    (∀ s : String, (∀ c ∈ s.data, isSpaceChar c = true) →
      parseLabelSelector s = .ok []) ∧
    (∀ L : List (String × String), L ≠ [] → (∀ kv ∈ L, plainPair kv) →
      (L.map Prod.fst).Nodup →
      parseLabelSelector (renderSelector L) = .ok L) ∧
    (parseLabelSelector " a = b ,c=d" = .ok [("a", "b"), ("c", "d")] ∧
      parseLabelSelector "a=1,a=2" = .ok [("a", "2")]) ∧
    (∀ segs bad rest res res2, parsePairs segs res = .ok res2 → trimSpace bad ≠ "" →
      ((splitN2Char '=' (trimSpace bad).data).2 = none →
        parsePairs (segs ++ bad :: rest) res =
          .error ("invalid label selector \"" ++ trimSpace bad ++
            "\": expected key=value pairs")) ∧
      (∀ kk vv, splitN2Char '=' (trimSpace bad).data = (kk, some vv) →
        (trimSpace (String.mk kk) = "" ∨ trimSpace (String.mk vv) = "") →
        parsePairs (segs ++ bad :: rest) res =
          .error ("invalid label selector \"" ++ trimSpace bad ++
            "\": empty key or value"))) ∧
    (∀ s, ¬ trimSpace s = "" →
      parseLabelSelector s = parsePairs ((splitChar ',' s.data).map String.mk) []) := by
  refine ⟨?_, ?_, ⟨by decide, by decide⟩, ?_, ?_⟩
  · intro s hsp
    have ht : trimSpace s = "" := by
      unfold trimSpace
      rw [trimSpaceList_eq_nil s.data hsp]
    rw [parseLabelSelector, if_pos ht]
  · intro L hL hplain hnd
    have hchars : ∀ c ∈ (renderSelector L).data, isSpaceChar c = false := by
      intro c hc
      rcases joinSep_data_mem _ c hc with rfl | ⟨s, hs, hcs⟩
      · decide
      · obtain ⟨kv, hkv, rfl⟩ := List.mem_map.mp hs
        obtain ⟨_, _, hkc, hvc⟩ := hplain kv hkv
        rw [segment_data] at hcs
        rcases List.mem_append.mp hcs with h | h
        · exact (hkc c h).2.2
        · rcases List.mem_cons.mp h with rfl | h
          · decide
          · exact (hvc c h).2
    have htrim : trimSpace (renderSelector L) = renderSelector L := by
      unfold trimSpace
      rw [trimSpaceList_eq_self _ hchars, mkData_eq]
    have hne : renderSelector L ≠ "" := by
      obtain ⟨kv, L2, rfl⟩ : ∃ kv L2, L = kv :: L2 := by
        cases L with
        | nil => exact absurd rfl hL
        | cons kv L2 => exact ⟨kv, L2, rfl⟩
      intro he
      have hd : (renderSelector (kv :: L2)).data = [] := by rw [he]
      cases L2 with
      | nil =>
        rw [show renderSelector [kv] = kv.1 ++ "=" ++ kv.2 from rfl, segment_data] at hd
        simp at hd
      | cons kv2 L3 =>
        rw [show renderSelector (kv :: kv2 :: L3) =
            (kv.1 ++ "=" ++ kv.2) ++ "," ++
              joinSep "," ((kv2 :: L3).map (fun p => p.1 ++ "=" ++ p.2)) from rfl,
          strData_append, strData_append] at hd
        simp at hd
    rw [parseLabelSelector, htrim, if_neg hne]
    have hcf : ∀ s ∈ L.map (fun kv => kv.1 ++ "=" ++ kv.2), ',' ∉ s.data := by
      intro s hs hmem
      obtain ⟨kv, hkv, rfl⟩ := List.mem_map.mp hs
      obtain ⟨_, _, hkc, hvc⟩ := hplain kv hkv
      rw [segment_data] at hmem
      rcases List.mem_append.mp hmem with h | h
      · exact (hkc ',' h).1 rfl
      · rcases List.mem_cons.mp h with h | h
        · cases h
        · exact (hvc ',' h).1 rfl
    rw [show (renderSelector L).data = (joinSep "," (L.map (fun kv => kv.1 ++ "=" ++ kv.2))).data
        from rfl,
      splitChar_joinSep _ (by simpa using hL) hcf,
      parsePairs_render L [] hplain,
      foldl_mapInsert L [] (fun kv _ => rfl) hnd]
    rfl
  · intro segs bad rest res res2 hok hbad
    rw [parsePairs_append segs (bad :: rest) res, hok]
    constructor
    · intro hsplit
      dsimp only
      rw [parsePairs, if_neg hbad]
      rcases hsp2 : splitN2Char '=' (trimSpace bad).data with ⟨kk, vo⟩
      rw [hsp2] at hsplit
      simp only at hsplit
      subst hsplit
      rfl
    · intro kk vv hsp2 hor
      dsimp only
      rw [parsePairs, if_neg hbad, hsp2]
      dsimp only
      rw [if_pos hor]
  · intro s hs
    rw [parseLabelSelector, if_neg hs]

/-- Witness for C6 at concrete inputs. -/
theorem parseLabelSelector_correct_witness :
    parseLabelSelector "   " = .ok [] ∧
    parseLabelSelector (renderSelector [("app", "tekton"), ("tier", "ci")]) =
      .ok [("app", "tekton"), ("tier", "ci")] ∧
    parsePairs (["a=b"] ++ "oops" :: []) [] =
      .error ("invalid label selector \"" ++ trimSpace "oops" ++
        "\": expected key=value pairs") ∧
    parsePairs (["a=b"] ++ "x=" :: []) [] =
      .error ("invalid label selector \"" ++ trimSpace "x=" ++
        "\": empty key or value") :=
  ⟨parseLabelSelector_correct.1 "   " (by decide),
   parseLabelSelector_correct.2.1 [("app", "tekton"), ("tier", "ci")] (by decide)
     (by decide)
     (by decide),
   (parseLabelSelector_correct.2.2.2.1 ["a=b"] "oops" [] [] [("a", "b")]
     (by decide) (by decide)).1 (by decide),
   (parseLabelSelector_correct.2.2.2.1 ["a=b"] "x=" [] [] [("a", "b")]
     (by decide) (by decide)).2 "x".data [] (by decide) (by decide)⟩

end TektonResults
